import Mathlib

/-!
Shallow embedding of the sequential multi-file decryption workflow of
`src/main.py` (a Streamlit application that reads password-protected
PDF/DOCX/XLSX/PPTX files).

The Streamlit session state is modelled by an explicit `SessionState`
structure; `st.session_state["file_status"]` (a Python dict, which keeps
insertion order and unique keys) is modelled as an ordered association
list together with the dict operations `dictLookup`, `dictUpdate` and
`dictInsert` that mirror Python dict indexing, item mutation and item
assignment.

The calls into the external libraries (PyPDF2 and msoffcrypto) are
modelled by an `Externals` record of oracles; a `none` result of an
oracle models an exception raised inside the library call, which the
wrappers in `main.py` catch (`try`/`except`).  The wrapper functions
`is_pdf_encrypted`, `decrypt_pdf`, `is_office_encrypted` and
`decrypt_office`, the callbacks `handle_submit` and `handle_cancel`, the
query `get_current_file`, and the ingestion loop of the 実行 button are
translated directly from the source.
-/

namespace PwApp

/-- Raw byte content of a file (abstract: a list of byte values). -/
abbrev Bytes := List Nat

/-- One value of the `st.session_state["file_status"]` dict: the per-file
record created by the ingestion loop (`main.py`, lines 238-246). -/
structure FileRecord where
  extension : String
  encrypted : Bool
  decrypted : Bool
  excluded : Bool
  content : Option Bytes
  file_bytes : Bytes
  error : Option String
  deriving Repr, DecidableEq

/-- The Streamlit session state of the application: the keys initialised
in `main.py`, lines 193-209. -/
structure SessionState where
  file_status : List (String × FileRecord)
  processing : Bool
  decrypted_files : List String
  excluded_files : List String
  error_message : String
  password_input : String
  deriving Repr, DecidableEq

/-- Oracles for the external library calls inside the four helper
functions.  A `none` result models an exception raised by the library:
`pdfReaderEncrypted` stands for `PyPDF2.PdfReader(...).is_encrypted`,
`officeFileEncrypted` for `msoffcrypto.OfficeFile(...).is_encrypted()`,
`pdfDecryptCode` for `reader.decrypt(password)` (an integer code, 0 on
failure), and `officeDecryptedValue` for the bytes produced by
`office_file.load_key(...)`; `office_file.decrypt(...)` (a wrong
password raises, hence `none`). -/
structure Externals where
  pdfReaderEncrypted : Bytes → Option Bool
  officeFileEncrypted : Bytes → Option Bool
  pdfDecryptCode : Bytes → String → Option Nat
  officeDecryptedValue : Bytes → String → Option Bytes

/-- `is_pdf_encrypted` (`main.py`, lines 12-26): returns the reader's
`is_encrypted` flag, `False` when the library raises. -/
def is_pdf_encrypted (pr : Externals) (file_bytes : Bytes) : Bool :=
  match pr.pdfReaderEncrypted file_bytes with
  | some result => result
  | none => false

/-- `decrypt_pdf` (`main.py`, lines 29-45): `reader.decrypt` returns 0 on
failure, 1 or 2 on success; an exception yields `False`. -/
def decrypt_pdf (pr : Externals) (file_bytes : Bytes) (password : String) : Bool :=
  match pr.pdfDecryptCode file_bytes password with
  | some result => result != 0
  | none => false

/-- `is_office_encrypted` (`main.py`, lines 48-62). -/
def is_office_encrypted (pr : Externals) (file_bytes : Bytes) : Bool :=
  match pr.officeFileEncrypted file_bytes with
  | some result => result
  | none => false

/-- `decrypt_office` (`main.py`, lines 65-83): the decrypted bytes, or
`None` when the library raises (e.g. on a wrong password). -/
def decrypt_office (pr : Externals) (file_bytes : Bytes) (password : String) : Option Bytes :=
  pr.officeDecryptedValue file_bytes password

/-- A record is pending when it is encrypted, not decrypted and not
excluded — the membership test of the list comprehension in
`get_current_file` (`main.py`, lines 93-99). -/
def isPending (r : FileRecord) : Bool :=
  r.encrypted && !r.decrypted && !r.excluded

/-- The first pending entry of `file_status` in dict (insertion) order,
together with its record. -/
def get_current_entry (s : SessionState) : Option (String × FileRecord) :=
  (s.file_status.filter fun p => isPending p.2).head?

/-- `get_current_file` (`main.py`, lines 86-103): the name of the first
pending entry of `file_status`, or `None` when no entry is pending. -/
def get_current_file (s : SessionState) : Option String :=
  (get_current_entry s).map Prod.fst

/-- The keys of the `file_status` dict, in insertion order. -/
def keysOf (fs : List (String × FileRecord)) : List String :=
  fs.map Prod.fst

/-- Python dict indexing `file_status[k]` (the first — in a real dict the
only — entry with key `k`). -/
def dictLookup : List (String × FileRecord) → String → Option FileRecord
  | [], _ => none
  | p :: fs, k => if p.1 = k then some p.2 else dictLookup fs k

/-- Mutating one field of the record stored at key `k`
(`file_status[k]["field"] = v` in Python): every entry with key `k` — in
a real dict the only one — is updated in place. -/
def dictUpdate (fs : List (String × FileRecord)) (k : String) (f : FileRecord → FileRecord) :
    List (String × FileRecord) :=
  fs.map fun p => if p.1 = k then (p.1, f p.2) else p

/-- Python `k in dict`. -/
def dictContains (fs : List (String × FileRecord)) (k : String) : Bool :=
  fs.any fun p => p.1 = k

/-- Python dict item assignment `file_status[k] = v`: overwrite in place
when the key is present, append otherwise. -/
def dictInsert (fs : List (String × FileRecord)) (k : String) (v : FileRecord) :
    List (String × FileRecord) :=
  if dictContains fs k then fs.map fun p => if p.1 = k then (p.1, v) else p
  else fs ++ [(k, v)]

/-- The validation message of `handle_submit` for an empty password
(`main.py`, line 121). -/
def passwordRequiredMessage : String := "パスワードを入力してください。"

/-- The failure message of `handle_submit` for a wrong password
(`main.py`, line 143). -/
def incorrectPasswordMessage : String := "パスワードが正しくありません。再度お試しください。"

/-- The message `handle_cancel` stores in `error_message`
(`main.py`, line 156). -/
def cancelMessage (name : String) : String :=
  "ファイル \x27" ++ name ++ "\x27 の処理をキャンセルしました。"

/-- `handle_submit` (`main.py`, lines 111-143), the Submit callback.
Python's `if not current_file` is also taken for an empty-string
filename, hence the extra guard.  The `dictLookup ... = none` branch
models the `KeyError` Python would raise on line 124; it cannot be
reached because `get_current_file` only returns keys of `file_status`,
and it leaves the state unchanged, as the exception would. -/
def handle_submit (pr : Externals) (s : SessionState) : SessionState :=
  match get_current_file s with
  | none => s
  | some current_file =>
    if current_file = "" then s
    else if s.password_input = "" then
      { s with error_message := passwordRequiredMessage }
    else
      match dictLookup s.file_status current_file with
      | none => s
      | some record =>
        if record.extension = "pdf" then
          if decrypt_pdf pr record.file_bytes s.password_input then
            { s with
              file_status :=
                dictUpdate s.file_status current_file fun r => { r with decrypted := true },
              decrypted_files := s.decrypted_files ++ [current_file],
              error_message := "",
              password_input := "" }
          else
            { s with error_message := incorrectPasswordMessage }
        else
          match decrypt_office pr record.file_bytes s.password_input with
          | some decrypted_bytes =>
            { s with
              file_status :=
                dictUpdate
                  (dictUpdate s.file_status current_file
                    fun r => { r with content := some decrypted_bytes })
                  current_file fun r => { r with decrypted := true },
              decrypted_files := s.decrypted_files ++ [current_file],
              error_message := "",
              password_input := "" }
          | none =>
            { s with error_message := incorrectPasswordMessage }

/-- `handle_cancel` (`main.py`, lines 146-158), the Cancel callback. -/
def handle_cancel (s : SessionState) : SessionState :=
  match get_current_file s with
  | none => s
  | some current_file =>
    if current_file = "" then s
    else
      { s with
        file_status :=
          dictUpdate s.file_status current_file fun r => { r with excluded := true },
        excluded_files := s.excluded_files ++ [current_file],
        error_message := cancelMessage current_file,
        password_input := "" }

/-- `file.name.split(".")[-1].lower()` (`main.py`, line 239), modelled
over the character list: the characters after the last dot — the whole
name when no dot occurs, the empty string when the name ends in a dot,
exactly as Python's `split` — lower-cased (ASCII case folding, which
covers the four extensions the app distinguishes). -/
def extensionOf (name : String) : String :=
  ⟨(name.data.foldl (fun acc c => if c = '.' then [] else acc ++ [c]) []).map Char.toLower⟩

/-- The encryption classification of the ingestion loop
(`main.py`, lines 250-256): detection for the supported formats,
`False` (fail-open) for any other extension. -/
def classifyEncrypted (pr : Externals) (extension : String) (file_bytes : Bytes) : Bool :=
  if extension = "pdf" then is_pdf_encrypted pr file_bytes
  else if extension = "docx" || extension = "xlsx" || extension = "pptx" then
    is_office_encrypted pr file_bytes
  else false

/-- The record the ingestion loop stores for one uploaded file
(`main.py`, lines 238-261): built with `encrypted` from the
classification and `decrypted` set exactly when not encrypted. -/
def ingestRecord (pr : Externals) (name : String) (file_bytes : Bytes) : FileRecord :=
  let extension := extensionOf name
  let encrypted := classifyEncrypted pr extension file_bytes
  { extension := extension
    encrypted := encrypted
    decrypted := !encrypted
    excluded := false
    content := none
    file_bytes := file_bytes
    error := none }

/-- One iteration of the 実行-button ingestion loop
(`main.py`, lines 236-262): store the record under the filename and, when
it is not encrypted, append the filename to `decrypted_files`. -/
def ingest_file (pr : Externals) (s : SessionState) (file : String × Bytes) : SessionState :=
  let record := ingestRecord pr file.1 file.2
  { s with
    file_status := dictInsert s.file_status file.1 record
    decrypted_files :=
      if record.encrypted then s.decrypted_files else s.decrypted_files ++ [file.1] }

/-- The session state right after the reset at the top of the 実行 branch
(`main.py`, lines 228-233). -/
def initialState : SessionState :=
  { file_status := []
    processing := true
    decrypted_files := []
    excluded_files := []
    error_message := ""
    password_input := "" }

/-- The full ingestion of one uploaded batch (`main.py`, lines 225-262):
reset the session state, then process the files in order. -/
def ingest (pr : Externals) (files : List (String × Bytes)) : SessionState :=
  files.foldl (ingest_file pr) initialState

/-- One user-driven transition of the workflow: typing into the password
box, pressing Submit, or pressing Cancel. -/
inductive Step (pr : Externals) : SessionState → SessionState → Prop where
  | setPassword (s : SessionState) (pw : String) : Step pr s { s with password_input := pw }
  | submit (s : SessionState) : Step pr s (handle_submit pr s)
  | cancel (s : SessionState) : Step pr s (handle_cancel s)

/-- The states a run can reach: the ingestion state followed by any
number of user-driven transitions. -/
def Reachable (pr : Externals) (files : List (String × Bytes)) (s : SessionState) : Prop :=
  Relation.ReflTransGen (Step pr) (ingest pr files) s

/-! ### Concrete fixtures for evaluating the model on closed inputs -/

/-- Concrete oracles: a file whose bytes are `[1]` is reported encrypted,
the pdf password is "x" (`reader.decrypt` code 1), the office password
is "y". -/
def wExternals : Externals :=
  { pdfReaderEncrypted := fun b => some (decide (b = [1])),
    officeFileEncrypted := fun b => some (decide (b = [1])),
    pdfDecryptCode := fun _ pw => if pw = "x" then some 1 else some 0,
    officeDecryptedValue := fun _ pw => if pw = "y" then some [7] else none }

/-- A pending encrypted pdf record. -/
def wPdfRecord : FileRecord :=
  { extension := "pdf", encrypted := true, decrypted := false, excluded := false,
    content := none, file_bytes := [1], error := none }

/-- A pending encrypted docx record. -/
def wDocxRecord : FileRecord :=
  { extension := "docx", encrypted := true, decrypted := false, excluded := false,
    content := none, file_bytes := [1], error := none }

/-- A mid-run state with two pending records and the pdf password typed in. -/
def wState : SessionState :=
  { file_status := [("a.pdf", wPdfRecord), ("b.docx", wDocxRecord)],
    processing := true, decrypted_files := [], excluded_files := [],
    error_message := "", password_input := "x" }

/-- The same state with a wrong password typed in. -/
def wStateWrong : SessionState :=
  { file_status := [("a.pdf", wPdfRecord), ("b.docx", wDocxRecord)],
    processing := true, decrypted_files := [], excluded_files := [],
    error_message := "", password_input := "z" }

/-- The same state with an empty password box. -/
def wStateEmpty : SessionState :=
  { file_status := [("a.pdf", wPdfRecord), ("b.docx", wDocxRecord)],
    processing := true, decrypted_files := [], excluded_files := [],
    error_message := "", password_input := "" }

/-- A concrete upload batch: two encrypted files and one of an
unsupported format. -/
def wFiles : List (String × Bytes) := [("a.pdf", [1]), ("b.docx", [1]), ("c.txt", [0])]

/-- A batch uploading the same filename twice, both unencrypted. -/
def wDupFiles : List (String × Bytes) := [("d.txt", [0]), ("d.txt", [2])]

/-! ### Helper lemmas about the dict operations -/

theorem keysOf_nil : keysOf [] = [] := rfl

theorem keysOf_cons (p : String × FileRecord) (fs : List (String × FileRecord)) :
    keysOf (p :: fs) = p.1 :: keysOf fs := rfl

theorem mem_keysOf {fs : List (String × FileRecord)} {k : String} :
    k ∈ keysOf fs ↔ ∃ r, (k, r) ∈ fs := by
  constructor
  · intro h
    obtain ⟨p, hp, hk⟩ := List.mem_map.mp h
    exact ⟨p.2, by simpa [← hk] using hp⟩
  · rintro ⟨r, hr⟩
    exact List.mem_map.mpr ⟨(k, r), hr, rfl⟩

theorem keysOf_dictUpdate (fs : List (String × FileRecord)) (k : String)
    (f : FileRecord → FileRecord) : keysOf (dictUpdate fs k f) = keysOf fs := by
  simp only [keysOf, dictUpdate, List.map_map]
  refine List.map_congr_left fun p _ => ?_
  by_cases h : p.1 = k <;> simp [h]

theorem mem_dictUpdate_iff {fs : List (String × FileRecord)} {k : String}
    {f : FileRecord → FileRecord} {q : String × FileRecord} :
    q ∈ dictUpdate fs k f ↔ ∃ p, p ∈ fs ∧ (if p.1 = k then (p.1, f p.2) else p) = q := by
  unfold dictUpdate
  exact List.mem_map

theorem mem_dictUpdate_of_mem_ne {fs : List (String × FileRecord)} {k : String}
    {f : FileRecord → FileRecord} {p : String × FileRecord}
    (hp : p ∈ fs) (hne : p.1 ≠ k) : p ∈ dictUpdate fs k f :=
  mem_dictUpdate_iff.mpr ⟨p, hp, by simp [hne]⟩

theorem mem_of_mem_dictUpdate_ne {fs : List (String × FileRecord)} {k : String}
    {f : FileRecord → FileRecord} {q : String × FileRecord}
    (hq : q ∈ dictUpdate fs k f) (hne : q.1 ≠ k) : q ∈ fs := by
  obtain ⟨p, hp, he⟩ := mem_dictUpdate_iff.mp hq
  by_cases h : p.1 = k
  · rw [if_pos h] at he
    exact absurd (by rw [← he]; exact h) hne
  · rw [if_neg h] at he
    exact he ▸ hp

theorem mem_dictUpdate_self {fs : List (String × FileRecord)} {k : String}
    {f : FileRecord → FileRecord} {r : FileRecord} (h : (k, r) ∈ fs) :
    (k, f r) ∈ dictUpdate fs k f :=
  mem_dictUpdate_iff.mpr ⟨(k, r), h, by simp⟩

theorem dictUpdate_dictUpdate (fs : List (String × FileRecord)) (k : String)
    (f g : FileRecord → FileRecord) :
    dictUpdate (dictUpdate fs k f) k g = dictUpdate fs k fun r => g (f r) := by
  simp only [dictUpdate, List.map_map]
  refine List.map_congr_left fun p _ => ?_
  by_cases h : p.1 = k <;> simp [h]

theorem dictLookup_cons (a : String) (b : FileRecord) (fs : List (String × FileRecord))
    (k : String) :
    dictLookup ((a, b) :: fs) k = if a = k then some b else dictLookup fs k := rfl

theorem dictUpdate_cons (a : String) (b : FileRecord) (fs : List (String × FileRecord))
    (k : String) (f : FileRecord → FileRecord) :
    dictUpdate ((a, b) :: fs) k f =
      (if a = k then (a, f b) else (a, b)) :: dictUpdate fs k f := rfl

theorem dictInsert_eq (fs : List (String × FileRecord)) (k : String) (v : FileRecord) :
    dictInsert fs k v =
      if dictContains fs k then dictUpdate fs k fun _ => v else fs ++ [(k, v)] := rfl

theorem dictLookup_mem {fs : List (String × FileRecord)} {k : String} {r : FileRecord}
    (h : dictLookup fs k = some r) : (k, r) ∈ fs := by
  induction fs with
  | nil => simp [dictLookup] at h
  | cons p fs ih =>
    rw [dictLookup] at h
    by_cases hp : p.1 = k
    · rw [if_pos hp] at h
      cases h
      subst hp
      exact List.mem_cons_self _ _
    · rw [if_neg hp] at h
      exact List.mem_cons_of_mem _ (ih h)

theorem dictLookup_isSome_of_mem_keys {fs : List (String × FileRecord)} {k : String}
    (h : k ∈ keysOf fs) : (dictLookup fs k).isSome := by
  induction fs with
  | nil => simp [keysOf] at h
  | cons p fs ih =>
    rw [dictLookup]
    by_cases hp : p.1 = k
    · simp [hp]
    · rw [if_neg hp]
      rw [keysOf_cons, List.mem_cons] at h
      exact ih (h.resolve_left fun he => hp he.symm)

theorem dictLookup_of_mem_nodup {fs : List (String × FileRecord)} {k : String} {r : FileRecord}
    (hnd : (keysOf fs).Nodup) (hm : (k, r) ∈ fs) : dictLookup fs k = some r := by
  induction fs with
  | nil => cases hm
  | cons p fs ih =>
    rw [keysOf_cons, List.nodup_cons] at hnd
    rw [dictLookup]
    rcases List.mem_cons.mp hm with he | hm2
    · rw [← he]
      simp
    · by_cases hp : p.1 = k
      · exact absurd (hp ▸ mem_keysOf.mpr ⟨r, hm2⟩) hnd.1
      · rw [if_neg hp]
        exact ih hnd.2 hm2

theorem eq_of_mem_nodup {fs : List (String × FileRecord)} {k : String} {r₁ r₂ : FileRecord}
    (hnd : (keysOf fs).Nodup) (h₁ : (k, r₁) ∈ fs) (h₂ : (k, r₂) ∈ fs) : r₁ = r₂ := by
  have e₁ := dictLookup_of_mem_nodup hnd h₁
  have e₂ := dictLookup_of_mem_nodup hnd h₂
  rw [e₁] at e₂
  exact (Option.some_injective _ e₂)

theorem dictLookup_dictUpdate (fs : List (String × FileRecord)) (k : String)
    (f : FileRecord → FileRecord) :
    dictLookup (dictUpdate fs k f) k = (dictLookup fs k).map f := by
  induction fs with
  | nil => rfl
  | cons p fs ih =>
    obtain ⟨a, b⟩ := p
    rw [dictUpdate_cons]
    by_cases ha : a = k
    · rw [if_pos ha, dictLookup_cons, dictLookup_cons, if_pos ha, if_pos ha]
      rfl
    · rw [if_neg ha, dictLookup_cons, dictLookup_cons, if_neg ha, if_neg ha]
      exact ih

theorem dictLookup_dictUpdate_ne (fs : List (String × FileRecord)) {k m : String}
    (f : FileRecord → FileRecord) (hne : m ≠ k) :
    dictLookup (dictUpdate fs k f) m = dictLookup fs m := by
  induction fs with
  | nil => rfl
  | cons p fs ih =>
    obtain ⟨a, b⟩ := p
    rw [dictUpdate_cons]
    by_cases ha : a = k
    · have hm : ¬a = m := fun h => hne (h ▸ ha)
      rw [if_pos ha, dictLookup_cons, dictLookup_cons, if_neg hm, if_neg hm]
      exact ih
    · rw [if_neg ha, dictLookup_cons, dictLookup_cons]
      by_cases ham : a = m
      · rw [if_pos ham, if_pos ham]
      · rw [if_neg ham, if_neg ham]
        exact ih

theorem dictContains_iff {fs : List (String × FileRecord)} {k : String} :
    dictContains fs k = true ↔ k ∈ keysOf fs := by
  simp only [dictContains, List.any_eq_true, decide_eq_true_eq, mem_keysOf]
  constructor
  · rintro ⟨p, hp, he⟩
    refine ⟨p.2, ?_⟩
    rw [← he]
    exact hp
  · rintro ⟨r, hr⟩
    exact ⟨(k, r), hr, rfl⟩

theorem dictInsert_fresh {fs : List (String × FileRecord)} {k : String} (v : FileRecord)
    (h : k ∉ keysOf fs) : dictInsert fs k v = fs ++ [(k, v)] := by
  rw [dictInsert_eq, if_neg]
  simp [dictContains_iff, h]

theorem dictLookup_append_fresh {fs : List (String × FileRecord)} {k : String}
    (v : FileRecord) (h : k ∉ keysOf fs) : dictLookup (fs ++ [(k, v)]) k = some v := by
  induction fs with
  | nil => simp [dictLookup]
  | cons p fs ih =>
    obtain ⟨a, b⟩ := p
    rw [keysOf_cons, List.mem_cons] at h
    push_neg at h
    rw [List.cons_append, dictLookup_cons, if_neg fun he => h.1 he.symm]
    exact ih h.2

theorem dictLookup_append_ne {fs : List (String × FileRecord)} {k m : String}
    (v : FileRecord) (hne : m ≠ k) :
    dictLookup (fs ++ [(k, v)]) m = dictLookup fs m := by
  induction fs with
  | nil =>
    rw [List.nil_append, dictLookup_cons, if_neg fun h => hne h.symm]
  | cons p fs ih =>
    obtain ⟨a, b⟩ := p
    rw [List.cons_append, dictLookup_cons, dictLookup_cons]
    by_cases ham : a = m
    · rw [if_pos ham, if_pos ham]
    · rw [if_neg ham, if_neg ham]
      exact ih

theorem dictLookup_dictInsert_self (fs : List (String × FileRecord)) (k : String)
    (v : FileRecord) : dictLookup (dictInsert fs k v) k = some v := by
  rw [dictInsert_eq]
  split
  · rename_i hc
    have hs := dictLookup_isSome_of_mem_keys (dictContains_iff.mp hc)
    rw [dictLookup_dictUpdate]
    obtain ⟨r, hr⟩ := Option.isSome_iff_exists.mp hs
    rw [hr]
    rfl
  · rename_i hc
    refine dictLookup_append_fresh v fun hk => hc (dictContains_iff.mpr hk)

theorem dictLookup_dictInsert_ne (fs : List (String × FileRecord)) {k m : String}
    (v : FileRecord) (hne : m ≠ k) :
    dictLookup (dictInsert fs k v) m = dictLookup fs m := by
  rw [dictInsert_eq]
  split
  · exact dictLookup_dictUpdate_ne fs _ hne
  · exact dictLookup_append_ne v hne

theorem keysOf_append (fs gs : List (String × FileRecord)) :
    keysOf (fs ++ gs) = keysOf fs ++ keysOf gs := by
  simp [keysOf]

theorem keysOf_dictInsert_overwrite {fs : List (String × FileRecord)} {k : String}
    (v : FileRecord) (h : k ∈ keysOf fs) :
    keysOf (dictInsert fs k v) = keysOf fs := by
  rw [dictInsert_eq, if_pos (dictContains_iff.mpr h)]
  exact keysOf_dictUpdate fs k _

theorem keysOf_dictInsert_nodup {fs : List (String × FileRecord)} {k : String}
    (v : FileRecord) (hnd : (keysOf fs).Nodup) : (keysOf (dictInsert fs k v)).Nodup := by
  by_cases h : k ∈ keysOf fs
  · rwa [keysOf_dictInsert_overwrite v h]
  · rw [dictInsert_fresh v h, keysOf_append]
    have hk : keysOf [(k, v)] = [k] := rfl
    rw [hk, List.nodup_append]
    exact ⟨hnd, List.nodup_singleton _, fun x hx hxk => h (List.mem_singleton.mp hxk ▸ hx)⟩

theorem mem_dictInsert {fs : List (String × FileRecord)} {k : String} {v : FileRecord}
    {q : String × FileRecord} (hq : q ∈ dictInsert fs k v) : q = (k, v) ∨ q ∈ fs := by
  rw [dictInsert_eq] at hq
  split at hq
  · obtain ⟨p, hp, he⟩ := mem_dictUpdate_iff.mp hq
    by_cases h : p.1 = k
    · rw [if_pos h] at he
      refine Or.inl ?_
      rw [← he, h]
    · rw [if_neg h] at he
      exact Or.inr (he ▸ hp)
  · rcases List.mem_append.mp hq with h | h
    · exact Or.inr h
    · exact Or.inl (List.mem_singleton.mp h)

/-! ### Helper lemmas about `get_current_entry` and `get_current_file` -/

theorem head?_filter_eq_find? {α : Type} (p : α → Bool) (l : List α) :
    (l.filter p).head? = l.find? p := by
  induction l with
  | nil => rfl
  | cons a l ih => by_cases h : p a <;> simp [List.filter_cons, List.find?, h, ih]

theorem get_current_entry_eq_find? (s : SessionState) :
    get_current_entry s = s.file_status.find? fun p => isPending p.2 :=
  head?_filter_eq_find? _ _

theorem get_current_entry_mem {s : SessionState} {p : String × FileRecord}
    (h : get_current_entry s = some p) : p ∈ s.file_status ∧ isPending p.2 = true := by
  rw [get_current_entry_eq_find?] at h
  have h2 := List.find?_some h
  exact ⟨List.mem_of_find?_eq_some h, h2⟩

theorem get_current_entry_none_iff {s : SessionState} :
    get_current_entry s = none ↔ ∀ p ∈ s.file_status, isPending p.2 = false := by
  rw [get_current_entry_eq_find?, List.find?_eq_none]
  simp

theorem get_current_file_eq_some {s : SessionState} {n : String}
    (h : get_current_file s = some n) : ∃ r, get_current_entry s = some (n, r) := by
  rw [get_current_file] at h
  cases hc : get_current_entry s with
  | none => rw [hc] at h; cases h
  | some p =>
    rw [hc] at h
    cases h
    exact ⟨p.2, by rfl⟩

theorem get_current_file_none_iff {s : SessionState} :
    get_current_file s = none ↔ ∀ p ∈ s.file_status, isPending p.2 = false := by
  constructor
  · intro h
    rw [get_current_file] at h
    cases hc : get_current_entry s with
    | none => exact get_current_entry_none_iff.mp hc
    | some p => rw [hc] at h; cases h
  · intro h
    rw [get_current_file, get_current_entry_none_iff.mpr h]
    rfl

theorem find?_decompose {α : Type} {p : α → Bool} {l : List α} {a : α}
    (h : l.find? p = some a) :
    ∃ l₁ l₂, l = l₁ ++ a :: l₂ ∧ p a = true ∧ ∀ x ∈ l₁, p x = false := by
  induction l with
  | nil => simp [List.find?] at h
  | cons b l ih =>
    rw [List.find?] at h
    by_cases hb : p b
    · rw [hb] at h
      simp only [Option.some_inj] at h
      subst h
      exact ⟨[], l, rfl, hb, by simp⟩
    · rw [Bool.not_eq_true] at hb
      rw [hb] at h
      obtain ⟨l₁, l₂, rfl, hpa, hall⟩ := ih h
      refine ⟨b :: l₁, l₂, rfl, hpa, ?_⟩
      intro x hx
      rcases List.mem_cons.mp hx with rfl | hx2
      · exact hb
      · exact hall x hx2

/-- `get_current_file` depends only on the `file_status` field. -/
theorem get_current_file_congr {s₁ s₂ : SessionState}
    (h : s₁.file_status = s₂.file_status) : get_current_file s₁ = get_current_file s₂ := by
  rw [get_current_file, get_current_file, get_current_entry, get_current_entry, h]

/-! ### Unfolding equations for the ingestion step -/

theorem ingestRecord_excluded (pr : Externals) (n : String) (b : Bytes) :
    (ingestRecord pr n b).excluded = false := rfl

theorem ingestRecord_decrypted (pr : Externals) (n : String) (b : Bytes) :
    (ingestRecord pr n b).decrypted = !(ingestRecord pr n b).encrypted := rfl

theorem ingestRecord_encrypted (pr : Externals) (n : String) (b : Bytes) :
    (ingestRecord pr n b).encrypted = classifyEncrypted pr (extensionOf n) b := rfl

theorem ingest_file_file_status (pr : Externals) (s : SessionState) (f : String × Bytes) :
    (ingest_file pr s f).file_status =
      dictInsert s.file_status f.1 (ingestRecord pr f.1 f.2) := rfl

theorem ingest_file_decrypted_files (pr : Externals) (s : SessionState) (f : String × Bytes) :
    (ingest_file pr s f).decrypted_files =
      if (ingestRecord pr f.1 f.2).encrypted then s.decrypted_files
      else s.decrypted_files ++ [f.1] := rfl

theorem ingest_file_excluded_files (pr : Externals) (s : SessionState) (f : String × Bytes) :
    (ingest_file pr s f).excluded_files = s.excluded_files := rfl

/-! ### The run invariant behind the partition property -/

/-- The invariant tying the two name accumulators to the `file_status`
records: the batch keys are unique, `decrypted_files` holds exactly the
names of decrypted records, `excluded_files` exactly the names of
excluded records, and no record is both decrypted and excluded. -/
structure Inv (s : SessionState) : Prop where
  nodup : (keysOf s.file_status).Nodup
  dec_mem : ∀ n, n ∈ s.decrypted_files ↔ ∃ r, (n, r) ∈ s.file_status ∧ r.decrypted = true
  exc_mem : ∀ n, n ∈ s.excluded_files ↔ ∃ r, (n, r) ∈ s.file_status ∧ r.excluded = true
  not_both : ∀ n r, (n, r) ∈ s.file_status → ¬(r.decrypted = true ∧ r.excluded = true)

theorem inv_of_eq {s₁ s₂ : SessionState} (h : Inv s₁)
    (hfs : s₂.file_status = s₁.file_status)
    (hd : s₂.decrypted_files = s₁.decrypted_files)
    (he : s₂.excluded_files = s₁.excluded_files) : Inv s₂ :=
  ⟨by rw [hfs]; exact h.nodup,
   by intro n; rw [hfs, hd]; exact h.dec_mem n,
   by intro n; rw [hfs, he]; exact h.exc_mem n,
   by intro n r hm; rw [hfs] at hm; exact h.not_both n r hm⟩

theorem inv_initialState : Inv initialState := by
  constructor <;> simp [initialState, keysOf]

/-- The image of a pair under a `dictUpdate`. -/
theorem mem_dictUpdate_image {fs : List (String × FileRecord)} {k : String}
    {f : FileRecord → FileRecord} {m : String} {r : FileRecord} (h : (m, r) ∈ fs) :
    (m, if m = k then f r else r) ∈ dictUpdate fs k f := by
  refine mem_dictUpdate_iff.mpr ⟨(m, r), h, ?_⟩
  by_cases hm : m = k <;> simp [hm]

/-- Every pair of a `dictUpdate` is the image of a pair of the original
list with the same key. -/
theorem mem_dictUpdate_src {fs : List (String × FileRecord)} {k : String}
    {f : FileRecord → FileRecord} {m : String} {r₂ : FileRecord}
    (h : (m, r₂) ∈ dictUpdate fs k f) :
    ∃ r, (m, r) ∈ fs ∧ r₂ = if m = k then f r else r := by
  obtain ⟨p, hp, he⟩ := mem_dictUpdate_iff.mp h
  by_cases hpk : p.1 = k
  · rw [if_pos hpk] at he
    simp only [Prod.mk.injEq] at he
    obtain ⟨h1, h2⟩ := he
    refine ⟨p.2, ?_, ?_⟩
    · rw [← h1]; exact hp
    · rw [if_pos (h1 ▸ hpk), ← h2]
  · rw [if_neg hpk] at he
    subst he
    have hmk : ¬m = k := hpk
    exact ⟨r₂, hp, by rw [if_neg hmk]⟩

/-- Marking the (unique) pending record `n` as decrypted and appending
`n` to `decrypted_files` preserves the invariant; the update function may
also change other fields as long as it forces `decrypted` and preserves
`excluded`. -/
theorem inv_mark_decrypted {s : SessionState} (h : Inv s) {n : String} {r₀ : FileRecord}
    (hmem : (n, r₀) ∈ s.file_status) (hpend : isPending r₀ = true)
    (f : FileRecord → FileRecord)
    (hdec : ∀ r, (f r).decrypted = true) (hexc : ∀ r, (f r).excluded = r.excluded) :
    Inv { s with file_status := dictUpdate s.file_status n f,
                 decrypted_files := s.decrypted_files ++ [n],
                 error_message := "", password_input := "" } := by
  have hpe : r₀.excluded = false := by
    rw [isPending] at hpend
    simp only [Bool.and_eq_true, Bool.not_eq_true'] at hpend
    exact hpend.2
  constructor
  · show (keysOf (dictUpdate s.file_status n f)).Nodup
    rw [keysOf_dictUpdate]
    exact h.nodup
  · intro m
    show m ∈ s.decrypted_files ++ [n] ↔
      ∃ r, (m, r) ∈ dictUpdate s.file_status n f ∧ r.decrypted = true
    simp only [List.mem_append, List.mem_singleton]
    constructor
    · rintro (hm | rfl)
      · obtain ⟨r, hr, hrd⟩ := (h.dec_mem m).mp hm
        refine ⟨if m = n then f r else r, mem_dictUpdate_image hr, ?_⟩
        by_cases hmn : m = n
        · rw [if_pos hmn]; exact hdec r
        · rw [if_neg hmn]; exact hrd
      · exact ⟨f r₀, mem_dictUpdate_self hmem, hdec r₀⟩
    · rintro ⟨r₂, hr₂, hd₂⟩
      obtain ⟨r, hr, he⟩ := mem_dictUpdate_src hr₂
      by_cases hmn : m = n
      · exact Or.inr hmn
      · rw [if_neg hmn] at he
        rw [he] at hd₂
        exact Or.inl ((h.dec_mem m).mpr ⟨r, hr, hd₂⟩)
  · intro m
    show m ∈ s.excluded_files ↔
      ∃ r, (m, r) ∈ dictUpdate s.file_status n f ∧ r.excluded = true
    constructor
    · intro hm
      obtain ⟨r, hr, hre⟩ := (h.exc_mem m).mp hm
      refine ⟨if m = n then f r else r, mem_dictUpdate_image hr, ?_⟩
      by_cases hmn : m = n
      · rw [if_pos hmn, hexc r]; exact hre
      · rw [if_neg hmn]; exact hre
    · rintro ⟨r₂, hr₂, he₂⟩
      obtain ⟨r, hr, he⟩ := mem_dictUpdate_src hr₂
      refine (h.exc_mem m).mpr ⟨r, hr, ?_⟩
      by_cases hmn : m = n
      · rw [if_pos hmn] at he
        rw [← hexc r, ← he]
        exact he₂
      · rw [if_neg hmn] at he
        rw [← he]
        exact he₂
  · intro m r₂ hr₂ hboth
    obtain ⟨hd₂, he₂⟩ := hboth
    have hr₂x : (m, r₂) ∈ dictUpdate s.file_status n f := hr₂
    obtain ⟨r, hr, he⟩ := mem_dictUpdate_src hr₂x
    by_cases hmn : m = n
    · rw [if_pos hmn] at he
      have hrr : r = r₀ := eq_of_mem_nodup h.nodup (hmn ▸ hr) hmem
      rw [he, hexc r, hrr, hpe] at he₂
      exact Bool.false_ne_true he₂
    · rw [if_neg hmn] at he
      rw [he] at hd₂ he₂
      exact h.not_both m r hr ⟨hd₂, he₂⟩

/-- The dual of `inv_mark_decrypted` for cancellation. -/
theorem inv_mark_excluded {s : SessionState} (h : Inv s) {n : String} {r₀ : FileRecord}
    (hmem : (n, r₀) ∈ s.file_status) (hpend : isPending r₀ = true) (msg : String) :
    Inv { s with
          file_status := dictUpdate s.file_status n fun r => { r with excluded := true },
          excluded_files := s.excluded_files ++ [n],
          error_message := msg, password_input := "" } := by
  have hpd : r₀.decrypted = false := by
    rw [isPending] at hpend
    simp only [Bool.and_eq_true, Bool.not_eq_true'] at hpend
    exact hpend.1.2
  constructor
  · show (keysOf (dictUpdate s.file_status n fun r => { r with excluded := true })).Nodup
    rw [keysOf_dictUpdate]
    exact h.nodup
  · intro m
    show m ∈ s.decrypted_files ↔
      ∃ r, (m, r) ∈ (dictUpdate s.file_status n fun r => { r with excluded := true }) ∧
        r.decrypted = true
    constructor
    · intro hm
      obtain ⟨r, hr, hrd⟩ := (h.dec_mem m).mp hm
      refine ⟨if m = n then { r with excluded := true } else r, mem_dictUpdate_image hr, ?_⟩
      by_cases hmn : m = n
      · rw [if_pos hmn]; exact hrd
      · rw [if_neg hmn]; exact hrd
    · rintro ⟨r₂, hr₂, hd₂⟩
      obtain ⟨r, hr, he⟩ := mem_dictUpdate_src hr₂
      refine (h.dec_mem m).mpr ⟨r, hr, ?_⟩
      by_cases hmn : m = n
      · rw [if_pos hmn] at he
        rw [he] at hd₂
        exact hd₂
      · rw [if_neg hmn] at he
        rw [← he]
        exact hd₂
  · intro m
    show m ∈ s.excluded_files ++ [n] ↔
      ∃ r, (m, r) ∈ (dictUpdate s.file_status n fun r => { r with excluded := true }) ∧
        r.excluded = true
    simp only [List.mem_append, List.mem_singleton]
    constructor
    · rintro (hm | rfl)
      · obtain ⟨r, hr, hre⟩ := (h.exc_mem m).mp hm
        refine ⟨if m = n then { r with excluded := true } else r,
          mem_dictUpdate_image hr, ?_⟩
        by_cases hmn : m = n
        · rw [if_pos hmn]
        · rw [if_neg hmn]; exact hre
      · exact ⟨{ r₀ with excluded := true }, mem_dictUpdate_self hmem, rfl⟩
    · rintro ⟨r₂, hr₂, he₂⟩
      obtain ⟨r, hr, he⟩ := mem_dictUpdate_src hr₂
      by_cases hmn : m = n
      · exact Or.inr hmn
      · rw [if_neg hmn] at he
        rw [he] at he₂
        exact Or.inl ((h.exc_mem m).mpr ⟨r, hr, he₂⟩)
  · intro m r₂ hr₂ hboth
    obtain ⟨hd₂, he₂⟩ := hboth
    have hr₂x : (m, r₂) ∈ dictUpdate s.file_status n fun r => { r with excluded := true } := hr₂
    obtain ⟨r, hr, he⟩ := mem_dictUpdate_src hr₂x
    by_cases hmn : m = n
    · rw [if_pos hmn] at he
      have hrr : r = r₀ := eq_of_mem_nodup h.nodup (hmn ▸ hr) hmem
      have hrd : r₂.decrypted = r.decrypted := by rw [he]
      rw [hrd, hrr, hpd] at hd₂
      exact Bool.false_ne_true hd₂
    · rw [if_neg hmn] at he
      rw [he] at hd₂ he₂
      exact h.not_both m r hr ⟨hd₂, he₂⟩

/-! ### Preservation of the invariant by the callbacks and by ingestion -/

theorem handle_submit_no_current {pr : Externals} {s : SessionState}
    (h : get_current_file s = none) : handle_submit pr s = s := by
  unfold handle_submit
  rw [h]

theorem handle_cancel_no_current {s : SessionState}
    (h : get_current_file s = none) : handle_cancel s = s := by
  unfold handle_cancel
  rw [h]

theorem inv_handle_submit (pr : Externals) {s : SessionState} (h : Inv s) :
    Inv (handle_submit pr s) := by
  unfold handle_submit
  cases hc : get_current_file s with
  | none => exact h
  | some n =>
    simp only []
    obtain ⟨r, hentry⟩ := get_current_file_eq_some hc
    obtain ⟨hmem, hpend⟩ := get_current_entry_mem hentry
    by_cases hn : n = ""
    · rw [if_pos hn]; exact h
    rw [if_neg hn]
    by_cases hpw : s.password_input = ""
    · rw [if_pos hpw]
      exact inv_of_eq h rfl rfl rfl
    rw [if_neg hpw, dictLookup_of_mem_nodup h.nodup hmem]
    simp only []
    by_cases hext : r.extension = "pdf"
    · rw [if_pos hext]
      by_cases hdec : decrypt_pdf pr r.file_bytes s.password_input = true
      · rw [if_pos hdec]
        exact inv_mark_decrypted h hmem hpend _ (fun _ => rfl) (fun _ => rfl)
      · rw [if_neg hdec]
        exact inv_of_eq h rfl rfl rfl
    · rw [if_neg hext]
      cases ho : decrypt_office pr r.file_bytes s.password_input with
      | some db =>
        simp only []
        rw [dictUpdate_dictUpdate]
        exact inv_mark_decrypted h hmem hpend _ (fun _ => rfl) (fun _ => rfl)
      | none =>
        exact inv_of_eq h rfl rfl rfl

theorem inv_handle_cancel {s : SessionState} (h : Inv s) : Inv (handle_cancel s) := by
  unfold handle_cancel
  cases hc : get_current_file s with
  | none => exact h
  | some n =>
    simp only []
    obtain ⟨r, hentry⟩ := get_current_file_eq_some hc
    obtain ⟨hmem, hpend⟩ := get_current_entry_mem hentry
    by_cases hn : n = ""
    · rw [if_pos hn]; exact h
    · rw [if_neg hn]
      exact inv_mark_excluded h hmem hpend _

theorem inv_step {pr : Externals} {s s₂ : SessionState} (h : Inv s)
    (hstep : Step pr s s₂) : Inv s₂ := by
  cases hstep with
  | setPassword pw => exact inv_of_eq h rfl rfl rfl
  | submit => exact inv_handle_submit pr h
  | cancel => exact inv_handle_cancel h

theorem inv_ingest_file (pr : Externals) {s : SessionState} (h : Inv s)
    {f : String × Bytes} (hfresh : f.1 ∉ keysOf s.file_status) :
    Inv (ingest_file pr s f) := by
  obtain ⟨name, bytes⟩ := f
  have hfresh2 : name ∉ keysOf s.file_status := hfresh
  have hnotd : name ∉ s.decrypted_files := fun hm => by
    obtain ⟨r, hr, _⟩ := (h.dec_mem name).mp hm
    exact hfresh2 (mem_keysOf.mpr ⟨r, hr⟩)
  constructor
  · show (keysOf (dictInsert s.file_status name (ingestRecord pr name bytes))).Nodup
    exact keysOf_dictInsert_nodup _ h.nodup
  · intro m
    show m ∈ (if (ingestRecord pr name bytes).encrypted then s.decrypted_files
        else s.decrypted_files ++ [name]) ↔
      ∃ r, (m, r) ∈ dictInsert s.file_status name (ingestRecord pr name bytes) ∧
        r.decrypted = true
    rw [dictInsert_fresh _ hfresh2]
    by_cases henc : (ingestRecord pr name bytes).encrypted = true
    · rw [if_pos henc]
      have hnd : (ingestRecord pr name bytes).decrypted = false := by
        rw [ingestRecord_decrypted, henc]
        rfl
      constructor
      · intro hm
        obtain ⟨r, hr, hrd⟩ := (h.dec_mem m).mp hm
        exact ⟨r, List.mem_append_left _ hr, hrd⟩
      · rintro ⟨r₂, hr₂, hd₂⟩
        rcases List.mem_append.mp hr₂ with hin | hin
        · exact (h.dec_mem m).mpr ⟨r₂, hin, hd₂⟩
        · rw [List.mem_singleton, Prod.mk.injEq] at hin
          rw [hin.2, hnd] at hd₂
          exact absurd hd₂ (by simp)
    · rw [if_neg henc]
      rw [Bool.not_eq_true] at henc
      have hnd : (ingestRecord pr name bytes).decrypted = true := by
        rw [ingestRecord_decrypted, henc]
        rfl
      simp only [List.mem_append, List.mem_singleton]
      constructor
      · rintro (hm | rfl)
        · obtain ⟨r, hr, hrd⟩ := (h.dec_mem m).mp hm
          exact ⟨r, Or.inl hr, hrd⟩
        · exact ⟨ingestRecord pr m bytes, Or.inr rfl, hnd⟩
      · rintro ⟨r₂, hr₂, hd₂⟩
        rcases hr₂ with hin | hin
        · exact Or.inl ((h.dec_mem m).mpr ⟨r₂, hin, hd₂⟩)
        · rw [Prod.mk.injEq] at hin
          exact Or.inr hin.1
  · intro m
    show m ∈ s.excluded_files ↔
      ∃ r, (m, r) ∈ dictInsert s.file_status name (ingestRecord pr name bytes) ∧
        r.excluded = true
    rw [dictInsert_fresh _ hfresh2]
    constructor
    · intro hm
      obtain ⟨r, hr, hre⟩ := (h.exc_mem m).mp hm
      exact ⟨r, List.mem_append_left _ hr, hre⟩
    · rintro ⟨r₂, hr₂, he₂⟩
      rcases List.mem_append.mp hr₂ with hin | hin
      · exact (h.exc_mem m).mpr ⟨r₂, hin, he₂⟩
      · rw [List.mem_singleton, Prod.mk.injEq] at hin
        rw [hin.2, ingestRecord_excluded] at he₂
        exact absurd he₂ (by simp)
  · intro m r₂ hr₂ hboth
    have hr₂x : (m, r₂) ∈
        dictInsert s.file_status name (ingestRecord pr name bytes) := hr₂
    rw [dictInsert_fresh _ hfresh2] at hr₂x
    rcases List.mem_append.mp hr₂x with hin | hin
    · exact h.not_both m r₂ hin hboth
    · rw [List.mem_singleton, Prod.mk.injEq] at hin
      rw [hin.2, ingestRecord_excluded] at hboth
      exact absurd hboth.2 (by simp)

theorem inv_ingest_aux (pr : Externals) :
    ∀ (files : List (String × Bytes)) (s : SessionState), Inv s →
      (keysOf s.file_status ++ files.map Prod.fst).Nodup →
      Inv (files.foldl (ingest_file pr) s) := by
  intro files
  induction files with
  | nil => intro s h _; exact h
  | cons f files ih =>
    intro s h hnd
    rw [List.foldl_cons]
    have hfresh : f.1 ∉ keysOf s.file_status := fun hmem =>
      (List.nodup_append.mp hnd).2.2 hmem (by simp)
    refine ih _ (inv_ingest_file pr h hfresh) ?_
    rw [ingest_file_file_status, dictInsert_fresh _ hfresh, keysOf_append]
    have hsing : keysOf [(f.1, ingestRecord pr f.1 f.2)] = [f.1] := rfl
    rw [hsing, List.append_assoc]
    simpa using hnd

theorem inv_ingest (pr : Externals) (files : List (String × Bytes))
    (hnd : (files.map Prod.fst).Nodup) : Inv (ingest pr files) := by
  rw [ingest]
  refine inv_ingest_aux pr files initialState inv_initialState ?_
  simpa [initialState, keysOf] using hnd

theorem inv_reachable {pr : Externals} {files : List (String × Bytes)} {s : SessionState}
    (hnd : (files.map Prod.fst).Nodup) (hr : Reachable pr files s) : Inv s := by
  induction hr with
  | refl => exact inv_ingest pr files hnd
  | tail _ hstep ih => exact inv_step ih hstep

/-! ### Growth of the accumulators along a step -/

theorem handle_submit_accumulators (pr : Externals) (s : SessionState) :
    ((handle_submit pr s).decrypted_files = s.decrypted_files ∨
      ∃ n, (handle_submit pr s).decrypted_files = s.decrypted_files ++ [n]) ∧
    (handle_submit pr s).excluded_files = s.excluded_files := by
  unfold handle_submit
  cases get_current_file s with
  | none => exact ⟨Or.inl rfl, rfl⟩
  | some n =>
    simp only []
    by_cases hn : n = ""
    · rw [if_pos hn]; exact ⟨Or.inl rfl, rfl⟩
    rw [if_neg hn]
    by_cases hpw : s.password_input = ""
    · rw [if_pos hpw]; exact ⟨Or.inl rfl, rfl⟩
    rw [if_neg hpw]
    cases dictLookup s.file_status n with
    | none => exact ⟨Or.inl rfl, rfl⟩
    | some r =>
      simp only []
      by_cases hext : r.extension = "pdf"
      · rw [if_pos hext]
        by_cases hdec : decrypt_pdf pr r.file_bytes s.password_input = true
        · rw [if_pos hdec]; exact ⟨Or.inr ⟨n, rfl⟩, rfl⟩
        · rw [if_neg hdec]; exact ⟨Or.inl rfl, rfl⟩
      · rw [if_neg hext]
        cases decrypt_office pr r.file_bytes s.password_input with
        | some db => exact ⟨Or.inr ⟨n, rfl⟩, rfl⟩
        | none => exact ⟨Or.inl rfl, rfl⟩

theorem handle_cancel_accumulators (s : SessionState) :
    (handle_cancel s).decrypted_files = s.decrypted_files ∧
    ((handle_cancel s).excluded_files = s.excluded_files ∨
      ∃ n, (handle_cancel s).excluded_files = s.excluded_files ++ [n]) := by
  unfold handle_cancel
  cases get_current_file s with
  | none => exact ⟨rfl, Or.inl rfl⟩
  | some n =>
    simp only []
    by_cases hn : n = ""
    · rw [if_pos hn]; exact ⟨rfl, Or.inl rfl⟩
    · rw [if_neg hn]; exact ⟨rfl, Or.inr ⟨n, rfl⟩⟩

theorem step_mono {pr : Externals} {s s₂ : SessionState} (hstep : Step pr s s₂)
    {n : String} (hmem : n ∈ s.decrypted_files ∨ n ∈ s.excluded_files) :
    n ∈ s₂.decrypted_files ∨ n ∈ s₂.excluded_files := by
  cases hstep with
  | setPassword pw => exact hmem
  | submit =>
    obtain ⟨hd, he⟩ := handle_submit_accumulators pr s
    rcases hmem with hm | hm
    · rcases hd with hd | ⟨m, hd⟩
      · exact Or.inl (hd ▸ hm)
      · exact Or.inl (hd ▸ List.mem_append_left _ hm)
    · exact Or.inr (he ▸ hm)
  | cancel =>
    obtain ⟨hd, he⟩ := handle_cancel_accumulators s
    rcases hmem with hm | hm
    · exact Or.inl (hd ▸ hm)
    · rcases he with he | ⟨m, he⟩
      · exact Or.inr (he ▸ hm)
      · exact Or.inr (he ▸ List.mem_append_left _ hm)

/-! ### Shape of the callbacks under explicit hypotheses -/

theorem handle_submit_eq_empty_pw {s : SessionState} {n : String} (pr : Externals)
    (hc : get_current_file s = some n) (hn : n ≠ "") (hpw : s.password_input = "") :
    handle_submit pr s = { s with error_message := passwordRequiredMessage } := by
  unfold handle_submit
  rw [hc]
  simp only []
  rw [if_neg hn, if_pos hpw]

theorem handle_submit_eq_pdf_success {pr : Externals} {s : SessionState} {n : String}
    {r : FileRecord} (hc : get_current_file s = some n) (hn : n ≠ "")
    (hpw : s.password_input ≠ "") (hr : dictLookup s.file_status n = some r)
    (hext : r.extension = "pdf")
    (hdec : decrypt_pdf pr r.file_bytes s.password_input = true) :
    handle_submit pr s =
      { s with
        file_status := dictUpdate s.file_status n fun x => { x with decrypted := true },
        decrypted_files := s.decrypted_files ++ [n],
        error_message := "", password_input := "" } := by
  unfold handle_submit
  rw [hc]
  simp only []
  rw [if_neg hn, if_neg hpw, hr]
  simp only []
  rw [if_pos hext, if_pos hdec]

theorem handle_submit_eq_office_success {pr : Externals} {s : SessionState} {n : String}
    {r : FileRecord} {db : Bytes} (hc : get_current_file s = some n) (hn : n ≠ "")
    (hpw : s.password_input ≠ "") (hr : dictLookup s.file_status n = some r)
    (hext : ¬r.extension = "pdf")
    (ho : decrypt_office pr r.file_bytes s.password_input = some db) :
    handle_submit pr s =
      { s with
        file_status := dictUpdate s.file_status n
          fun x => { x with decrypted := true, content := some db },
        decrypted_files := s.decrypted_files ++ [n],
        error_message := "", password_input := "" } := by
  unfold handle_submit
  rw [hc]
  simp only []
  rw [if_neg hn, if_neg hpw, hr]
  simp only []
  rw [if_neg hext, ho]
  simp only []
  rw [dictUpdate_dictUpdate]

theorem handle_submit_eq_failure {pr : Externals} {s : SessionState} {n : String}
    {r : FileRecord} (hc : get_current_file s = some n) (hn : n ≠ "")
    (hpw : s.password_input ≠ "") (hr : dictLookup s.file_status n = some r)
    (hfail : if r.extension = "pdf"
      then decrypt_pdf pr r.file_bytes s.password_input = false
      else decrypt_office pr r.file_bytes s.password_input = none) :
    handle_submit pr s = { s with error_message := incorrectPasswordMessage } := by
  unfold handle_submit
  rw [hc]
  simp only []
  rw [if_neg hn, if_neg hpw, hr]
  simp only []
  by_cases hext : r.extension = "pdf"
  · rw [if_pos hext] at hfail
    have hd : ¬decrypt_pdf pr r.file_bytes s.password_input = true := by
      rw [hfail]
      exact Bool.false_ne_true
    rw [if_pos hext, if_neg hd]
  · rw [if_neg hext] at hfail
    rw [if_neg hext, hfail]

theorem handle_cancel_eq {s : SessionState} {n : String}
    (hc : get_current_file s = some n) (hn : n ≠ "") :
    handle_cancel s =
      { s with
        file_status := dictUpdate s.file_status n fun x => { x with excluded := true },
        excluded_files := s.excluded_files ++ [n],
        error_message := cancelMessage n, password_input := "" } := by
  unfold handle_cancel
  rw [hc]
  simp only []
  rw [if_neg hn]

/-- An update that only touches the fields `decrypted` and `content`
leaves the keys unchanged, maps the updated key to the updated record and
leaves every other key's record untouched. -/
theorem dictUpdate_spec {fs : List (String × FileRecord)} {n : String} {r : FileRecord}
    (hr : dictLookup fs n = some r) (f : FileRecord → FileRecord) :
    dictLookup (dictUpdate fs n f) n = some (f r) ∧
      (∀ m, m ≠ n → dictLookup (dictUpdate fs n f) m = dictLookup fs m) ∧
      keysOf (dictUpdate fs n f) = keysOf fs := by
  refine ⟨?_, fun m hm => dictLookup_dictUpdate_ne fs f hm, keysOf_dictUpdate fs n f⟩
  rw [dictLookup_dictUpdate, hr]
  rfl

theorem step_keys {pr : Externals} {s s₂ : SessionState} (hstep : Step pr s s₂) :
    keysOf s₂.file_status = keysOf s.file_status := by
  cases hstep with
  | setPassword pw => rfl
  | submit =>
    unfold handle_submit
    cases get_current_file s with
    | none => rfl
    | some n =>
      simp only []
      by_cases hn : n = ""
      · rw [if_pos hn]
      rw [if_neg hn]
      by_cases hpw : s.password_input = ""
      · rw [if_pos hpw]
      rw [if_neg hpw]
      cases dictLookup s.file_status n with
      | none => rfl
      | some r =>
        simp only []
        by_cases hext : r.extension = "pdf"
        · rw [if_pos hext]
          by_cases hdec : decrypt_pdf pr r.file_bytes s.password_input = true
          · rw [if_pos hdec]
            show keysOf (dictUpdate s.file_status n fun x => { x with decrypted := true }) =
              keysOf s.file_status
            exact keysOf_dictUpdate _ _ _
          · rw [if_neg hdec]
        · rw [if_neg hext]
          cases decrypt_office pr r.file_bytes s.password_input with
          | some db =>
            simp only []
            show keysOf (dictUpdate (dictUpdate s.file_status n
                fun x => { x with content := some db }) n
                fun x => { x with decrypted := true }) = keysOf s.file_status
            rw [keysOf_dictUpdate, keysOf_dictUpdate]
          | none => rfl
  | cancel =>
    unfold handle_cancel
    cases get_current_file s with
    | none => rfl
    | some n =>
      simp only []
      by_cases hn : n = ""
      · rw [if_pos hn]
      · rw [if_neg hn]
        show keysOf (dictUpdate s.file_status n fun x => { x with excluded := true }) =
          keysOf s.file_status
        exact keysOf_dictUpdate _ _ _

/-! ### The keys produced by ingestion -/

theorem ingest_keys_aux (pr : Externals) :
    ∀ (files : List (String × Bytes)) (s : SessionState),
      (keysOf s.file_status ++ files.map Prod.fst).Nodup →
      keysOf ((files.foldl (ingest_file pr) s).file_status) =
        keysOf s.file_status ++ files.map Prod.fst := by
  intro files
  induction files with
  | nil => intro s _; simp
  | cons f files ih =>
    intro s hnd
    rw [List.foldl_cons]
    have hfresh : f.1 ∉ keysOf s.file_status := fun hmem =>
      (List.nodup_append.mp hnd).2.2 hmem (by simp)
    have hkeys : keysOf ((ingest_file pr s f).file_status) =
        keysOf s.file_status ++ [f.1] := by
      rw [ingest_file_file_status, dictInsert_fresh _ hfresh, keysOf_append]
      rfl
    have hnd2 : (keysOf ((ingest_file pr s f).file_status) ++ files.map Prod.fst).Nodup := by
      rw [hkeys, List.append_assoc]
      simpa using hnd
    rw [ih _ hnd2, hkeys, List.append_assoc]
    simp

theorem ingest_keys (pr : Externals) (files : List (String × Bytes))
    (hnd : (files.map Prod.fst).Nodup) :
    keysOf (ingest pr files).file_status = files.map Prod.fst := by
  rw [ingest]
  have h0 : keysOf initialState.file_status = [] := rfl
  have := ingest_keys_aux pr files initialState (by rw [h0]; simpa using hnd)
  rw [this, h0, List.nil_append]

theorem ingest_keys_nodup_aux (pr : Externals) :
    ∀ (files : List (String × Bytes)) (s : SessionState),
      (keysOf s.file_status).Nodup →
      (keysOf ((files.foldl (ingest_file pr) s).file_status)).Nodup := by
  intro files
  induction files with
  | nil => intro s h; exact h
  | cons f files ih =>
    intro s h
    rw [List.foldl_cons]
    refine ih _ ?_
    rw [ingest_file_file_status]
    exact keysOf_dictInsert_nodup _ h

theorem ingest_keys_nodup (pr : Externals) (files : List (String × Bytes)) :
    (keysOf (ingest pr files).file_status).Nodup :=
  ingest_keys_nodup_aux pr files initialState List.nodup_nil

/-! ### Non-encrypted records are resolved at ingestion time -/

theorem ingest_file_unencrypted (pr : Externals) (s : SessionState) (f : String × Bytes)
    (h : ∀ n r, (n, r) ∈ s.file_status → r.encrypted = false →
      r.decrypted = true ∧ n ∈ s.decrypted_files) :
    ∀ n r, (n, r) ∈ (ingest_file pr s f).file_status → r.encrypted = false →
      r.decrypted = true ∧ n ∈ (ingest_file pr s f).decrypted_files := by
  obtain ⟨name, bytes⟩ := f
  intro n r hmem henc
  have hmemx : (n, r) ∈ dictInsert s.file_status name (ingestRecord pr name bytes) := hmem
  rw [ingest_file_decrypted_files]
  rcases mem_dictInsert hmemx with he | hold
  · rw [Prod.mk.injEq] at he
    obtain ⟨rfl, rfl⟩ := he
    have hcond : ¬(ingestRecord pr n bytes).encrypted = true := by
      rw [henc]
      exact Bool.false_ne_true
    constructor
    · rw [ingestRecord_decrypted, henc]
      rfl
    · rw [if_neg hcond]
      simp
  · obtain ⟨hd, hmem2⟩ := h n r hold henc
    refine ⟨hd, ?_⟩
    split
    · exact hmem2
    · exact List.mem_append_left _ hmem2

theorem ingest_unencrypted_aux (pr : Externals) :
    ∀ (files : List (String × Bytes)) (s : SessionState),
      (∀ n r, (n, r) ∈ s.file_status → r.encrypted = false →
        r.decrypted = true ∧ n ∈ s.decrypted_files) →
      ∀ n r, (n, r) ∈ (files.foldl (ingest_file pr) s).file_status → r.encrypted = false →
        r.decrypted = true ∧ n ∈ (files.foldl (ingest_file pr) s).decrypted_files := by
  intro files
  induction files with
  | nil => intro s h; exact h
  | cons f files ih =>
    intro s h
    rw [List.foldl_cons]
    exact ih _ (ingest_file_unencrypted pr s f h)

theorem ingest_unencrypted (pr : Externals) (files : List (String × Bytes)) :
    ∀ n r, (n, r) ∈ (ingest pr files).file_status → r.encrypted = false →
      r.decrypted = true ∧ n ∈ (ingest pr files).decrypted_files := by
  refine ingest_unencrypted_aux pr files initialState ?_
  intro n r hmem
  cases hmem

/-! ### Ingestion of duplicate filenames -/

theorem ingest_lookup_aux (pr : Externals) (n : String) :
    ∀ (files : List (String × Bytes)) (s : SessionState),
      dictLookup ((files.foldl (ingest_file pr) s).file_status) n =
        ((files.filter fun f => decide (f.1 = n)).getLast?).elim
          (dictLookup s.file_status n) (fun f => some (ingestRecord pr f.1 f.2)) := by
  intro files
  induction files using List.reverseRecOn with
  | nil => intro s; simp
  | append_singleton l g ih =>
    intro s
    rw [List.foldl_append, List.foldl_cons, List.foldl_nil, List.filter_append]
    by_cases hg : g.1 = n
    · have hfg : List.filter (fun f => decide (f.1 = n)) [g] = [g] := by
        simp [List.filter_cons, hg]
      rw [hfg, List.getLast?_concat]
      have : dictLookup ((ingest_file pr (l.foldl (ingest_file pr) s) g).file_status) n =
          some (ingestRecord pr g.1 g.2) := by
        rw [ingest_file_file_status, ← hg]
        exact dictLookup_dictInsert_self _ _ _
      rw [this]
      rfl
    · have hfg : List.filter (fun f => decide (f.1 = n)) [g] = [] := by
        simp [List.filter_cons, hg]
      rw [hfg, List.append_nil]
      have : dictLookup ((ingest_file pr (l.foldl (ingest_file pr) s) g).file_status) n =
          dictLookup ((l.foldl (ingest_file pr) s).file_status) n := by
        rw [ingest_file_file_status]
        exact dictLookup_dictInsert_ne _ _ fun he => hg he.symm
      rw [this, ih]

theorem ingest_count_aux (pr : Externals) (n : String) :
    ∀ (files : List (String × Bytes)) (s : SessionState),
      ((files.foldl (ingest_file pr) s).decrypted_files).count n =
        (s.decrypted_files).count n +
          (files.filter fun f =>
            decide (f.1 = n) && !(ingestRecord pr f.1 f.2).encrypted).length := by
  intro files
  induction files with
  | nil => intro s; simp
  | cons f files ih =>
    intro s
    rw [List.foldl_cons, ih, List.filter_cons]
    have hd : ((ingest_file pr s f).decrypted_files).count n =
        (s.decrypted_files).count n +
          (if decide (f.1 = n) && !(ingestRecord pr f.1 f.2).encrypted then 1 else 0) := by
      rw [ingest_file_decrypted_files]
      by_cases henc : (ingestRecord pr f.1 f.2).encrypted = true
      · rw [if_pos henc, henc]
        simp
      · rw [if_neg henc, List.count_append]
        rw [Bool.not_eq_true] at henc
        rw [henc]
        by_cases hfn : f.1 = n
        · rw [hfn]
          simp
        · have h0 : List.count n [f.1] = 0 := by simp [List.count_cons, hfn]
          rw [h0]
          simp [hfn]
    rw [hd]
    by_cases hcond : (decide (f.1 = n) && !(ingestRecord pr f.1 f.2).encrypted) = true
    · rw [if_pos hcond, if_pos hcond]
      simp
      omega
    · rw [if_neg hcond, if_neg hcond]
      omega

/-- The cancellation notice is never the empty string. -/
theorem cancelMessage_ne_empty (m : String) : cancelMessage m ≠ "" := by
  intro h
  have hdata : (cancelMessage m).data = ("" : String).data := by rw [h]
  rw [cancelMessage, String.data_append, String.data_append] at hdata
  simp at hdata

/-! ## The claims -/

/-- C1: in every state a run can reach (ingestion followed by
submit/cancel steps), if the batch filenames are unique, then
`decrypted_files` and `excluded_files` together contain exactly the
filenames of resolved (decrypted or excluded) records, no filename is in
both lists, and the union of the two lists only grows along any further
workflow step. -/
theorem reachable_partition_monotone_spec (pr : Externals) (files : List (String × Bytes))
    (hnd : (files.map Prod.fst).Nodup) (s : SessionState) (hs : Reachable pr files s) :
    (∀ n, (n ∈ s.decrypted_files ∨ n ∈ s.excluded_files) ↔
      ∃ r, (n, r) ∈ s.file_status ∧ (r.decrypted = true ∨ r.excluded = true)) ∧
    (∀ n, ¬(n ∈ s.decrypted_files ∧ n ∈ s.excluded_files)) ∧
    (∀ s₂, Step pr s s₂ → ∀ n, (n ∈ s.decrypted_files ∨ n ∈ s.excluded_files) →
      (n ∈ s₂.decrypted_files ∨ n ∈ s₂.excluded_files)) := by
  have h := inv_reachable hnd hs
  refine ⟨?_, ?_, fun s₂ hstep n => step_mono hstep⟩
  · intro n
    constructor
    · rintro (hm | hm)
      · obtain ⟨r, hr, hd⟩ := (h.dec_mem n).mp hm
        exact ⟨r, hr, Or.inl hd⟩
      · obtain ⟨r, hr, hx⟩ := (h.exc_mem n).mp hm
        exact ⟨r, hr, Or.inr hx⟩
    · rintro ⟨r, hr, hd | hx⟩
      · exact Or.inl ((h.dec_mem n).mpr ⟨r, hr, hd⟩)
      · exact Or.inr ((h.exc_mem n).mpr ⟨r, hr, hx⟩)
  · rintro n ⟨hd, he⟩
    obtain ⟨r₁, hr₁, hd₁⟩ := (h.dec_mem n).mp hd
    obtain ⟨r₂, hr₂, he₂⟩ := (h.exc_mem n).mp he
    have heq : r₁ = r₂ := eq_of_mem_nodup h.nodup hr₁ hr₂
    rw [← heq] at he₂
    exact h.not_both n r₁ hr₁ ⟨hd₁, he₂⟩

/-- Witness for C1 at the concrete batch `wFiles` (its ingestion state). -/
theorem reachable_partition_monotone_witness :
    ("c.txt" ∈ (ingest wExternals wFiles).decrypted_files ∨
        "c.txt" ∈ (ingest wExternals wFiles).excluded_files) ↔
      ∃ r, ("c.txt", r) ∈ (ingest wExternals wFiles).file_status ∧
        (r.decrypted = true ∨ r.excluded = true) :=
  (reachable_partition_monotone_spec wExternals wFiles (by decide) _
    Relation.ReflTransGen.refl).1 "c.txt"

/-- C2: `get_current_file` is a pure function (two calls without
mutation agree), it returns `none` exactly when no record is pending,
and otherwise the first pending record in `file_status` order — which is
original submission order, because ingestion with unique names lays the
records out in submission order and the workflow steps never change the
key sequence. -/
theorem get_current_file_spec (s : SessionState) (pr : Externals)
    (files : List (String × Bytes)) :
    (get_current_file s = get_current_file s) ∧
    (get_current_file s = none ↔ ∀ p ∈ s.file_status, isPending p.2 = false) ∧
    (∀ n, get_current_file s = some n →
      ∃ l₁ r l₂, s.file_status = l₁ ++ (n, r) :: l₂ ∧ isPending r = true ∧
        ∀ q ∈ l₁, isPending q.2 = false) ∧
    ((files.map Prod.fst).Nodup →
      keysOf (ingest pr files).file_status = files.map Prod.fst) ∧
    (∀ s₂, Step pr s s₂ → keysOf s₂.file_status = keysOf s.file_status) := by
  refine ⟨rfl, get_current_file_none_iff, ?_, ingest_keys pr files, fun s₂ h => step_keys h⟩
  intro n hn
  obtain ⟨r, hentry⟩ := get_current_file_eq_some hn
  rw [get_current_entry_eq_find?] at hentry
  obtain ⟨l₁, l₂, hsplit, hpend, hall⟩ := find?_decompose hentry
  exact ⟨l₁, r, l₂, hsplit, hpend, hall⟩

/-- Witness for C2: on `wState` the current file is "a.pdf", the first
pending record. -/
theorem get_current_file_spec_witness :
    ∃ l₁ r l₂, wState.file_status = l₁ ++ ("a.pdf", r) :: l₂ ∧ isPending r = true ∧
      ∀ q ∈ l₁, isPending q.2 = false :=
  (get_current_file_spec wState wExternals wFiles).2.2.1 "a.pdf" rfl

/-- C3: with a pending current file and a password the format's
decryption primitive accepts, `handle_submit` marks exactly that record
decrypted (its encrypted/excluded/extension/raw-bytes fields otherwise
unchanged), appends that filename once to `decrypted_files`, clears the
error message and the password input, and leaves every other record and
the excluded list unchanged. -/
theorem correct_password_success_spec (pr : Externals) (s : SessionState) (n : String)
    (r : FileRecord) (hc : get_current_file s = some n) (hn : n ≠ "")
    (hpw : s.password_input ≠ "") (hr : dictLookup s.file_status n = some r)
    (hsucc : if r.extension = "pdf"
      then decrypt_pdf pr r.file_bytes s.password_input = true
      else (decrypt_office pr r.file_bytes s.password_input).isSome = true) :
    (∃ r₂, dictLookup (handle_submit pr s).file_status n = some r₂ ∧
      r₂.decrypted = true ∧ r₂.encrypted = r.encrypted ∧ r₂.excluded = r.excluded ∧
      r₂.extension = r.extension ∧ r₂.file_bytes = r.file_bytes) ∧
    (∀ m, m ≠ n →
      dictLookup (handle_submit pr s).file_status m = dictLookup s.file_status m) ∧
    (handle_submit pr s).decrypted_files = s.decrypted_files ++ [n] ∧
    (handle_submit pr s).excluded_files = s.excluded_files ∧
    (handle_submit pr s).error_message = "" ∧
    (handle_submit pr s).password_input = "" := by
  by_cases hext : r.extension = "pdf"
  · rw [if_pos hext] at hsucc
    have he := handle_submit_eq_pdf_success hc hn hpw hr hext hsucc
    rw [he]
    obtain ⟨h1, h2, h3⟩ := dictUpdate_spec hr fun x => { x with decrypted := true }
    exact ⟨⟨{ r with decrypted := true }, h1, rfl, rfl, rfl, rfl, rfl⟩,
      h2, rfl, rfl, rfl, rfl⟩
  · rw [if_neg hext] at hsucc
    obtain ⟨db, ho⟩ := Option.isSome_iff_exists.mp hsucc
    have he := handle_submit_eq_office_success hc hn hpw hr hext ho
    rw [he]
    obtain ⟨h1, h2, h3⟩ :=
      dictUpdate_spec hr fun x => { x with decrypted := true, content := some db }
    exact ⟨⟨{ r with decrypted := true, content := some db }, h1, rfl, rfl, rfl, rfl, rfl⟩,
      h2, rfl, rfl, rfl, rfl⟩

/-- Witness for C3: submitting the correct pdf password on `wState`
appends "a.pdf" to the decrypted list. -/
theorem correct_password_success_witness :
    (handle_submit wExternals wState).decrypted_files =
      wState.decrypted_files ++ ["a.pdf"] :=
  (correct_password_success_spec wExternals wState "a.pdf" wPdfRecord rfl (by decide)
    (by decide) rfl (by decide)).2.2.1

/-- C4: with a pending current file and a non-empty password the
decryption primitive rejects, `handle_submit` only sets the error
message to the incorrect-password text — records, accumulators and the
password box are untouched — so the same file remains the current
pending file. -/
theorem incorrect_password_frame_spec (pr : Externals) (s : SessionState) (n : String)
    (r : FileRecord) (hc : get_current_file s = some n) (hn : n ≠ "")
    (hpw : s.password_input ≠ "") (hr : dictLookup s.file_status n = some r)
    (hfail : if r.extension = "pdf"
      then decrypt_pdf pr r.file_bytes s.password_input = false
      else decrypt_office pr r.file_bytes s.password_input = none) :
    handle_submit pr s = { s with error_message := incorrectPasswordMessage } ∧
      get_current_file (handle_submit pr s) = some n := by
  have he := handle_submit_eq_failure hc hn hpw hr hfail
  refine ⟨he, ?_⟩
  rw [he]
  exact (get_current_file_congr rfl).trans hc

/-- Witness for C4: a wrong pdf password on `wStateWrong` only sets the
error message and "a.pdf" stays current. -/
theorem incorrect_password_frame_witness :
    handle_submit wExternals wStateWrong =
        { wStateWrong with error_message := incorrectPasswordMessage } ∧
      get_current_file (handle_submit wExternals wStateWrong) = some "a.pdf" :=
  incorrect_password_frame_spec wExternals wStateWrong "a.pdf" wPdfRecord rfl (by decide)
    (by decide) rfl (by decide)

/-- C5: with a pending current file, `handle_cancel` marks exactly that
record excluded, appends that filename once to `excluded_files`, clears
the password input, and leaves every other record and the
decrypted-names list unchanged. -/
theorem cancel_current_spec (s : SessionState) (n : String) (r : FileRecord)
    (hc : get_current_file s = some n) (hn : n ≠ "")
    (hr : dictLookup s.file_status n = some r) :
    dictLookup (handle_cancel s).file_status n = some { r with excluded := true } ∧
    (∀ m, m ≠ n →
      dictLookup (handle_cancel s).file_status m = dictLookup s.file_status m) ∧
    (handle_cancel s).excluded_files = s.excluded_files ++ [n] ∧
    (handle_cancel s).decrypted_files = s.decrypted_files ∧
    (handle_cancel s).password_input = "" := by
  have he := handle_cancel_eq hc hn
  rw [he]
  obtain ⟨h1, h2, h3⟩ := dictUpdate_spec hr fun x => { x with excluded := true }
  exact ⟨h1, h2, rfl, rfl, rfl⟩

/-- Witness for C5: cancelling on `wState` appends "a.pdf" to the
excluded list. -/
theorem cancel_current_witness :
    (handle_cancel wState).excluded_files = wState.excluded_files ++ ["a.pdf"] :=
  (cancel_current_spec wState "a.pdf" wPdfRecord rfl (by decide) rfl).2.2.1

/-- C6: with a pending current file and an empty password box,
`handle_submit` only sets the validation message; no record or
accumulator changes, and no decryption primitive is consulted — the
result is identical for arbitrary oracles. -/
theorem empty_password_validation_spec (pr : Externals) (s : SessionState) (n : String)
    (hc : get_current_file s = some n) (hn : n ≠ "") (hpw : s.password_input = "") :
    handle_submit pr s = { s with error_message := passwordRequiredMessage } ∧
      ∀ pr₂ : Externals, handle_submit pr₂ s = handle_submit pr s := by
  have he : ∀ pr₂ : Externals,
      handle_submit pr₂ s = { s with error_message := passwordRequiredMessage } :=
    fun pr₂ => handle_submit_eq_empty_pw pr₂ hc hn hpw
  exact ⟨he pr, fun pr₂ => (he pr₂).trans (he pr).symm⟩

/-- Witness for C6 on `wStateEmpty`. -/
theorem empty_password_validation_witness :
    handle_submit wExternals wStateEmpty =
      { wStateEmpty with error_message := passwordRequiredMessage } :=
  (empty_password_validation_spec wExternals wStateEmpty "a.pdf" rfl (by decide) rfl).1

/-- C7 counterexample: after cancelling the current file of `wState`
(which resolves it), the next file "b.docx" is prompted while the error
message is the non-empty cancellation notice — it is not cleared. -/
theorem error_after_cancel_counterexample :
    get_current_file (handle_cancel wState) = some "b.docx" ∧
      (handle_cancel wState).error_message ≠ "" := by
  decide

/-- C7 amended: the pending-password error message is cleared by a
successful password attempt, but a cancellation instead stores the
non-empty cancellation notice for the cancelled file, which the next
file's prompt then shows. -/
theorem error_message_after_resolution_spec (pr : Externals) (s : SessionState)
    (n : String) (r : FileRecord) (hc : get_current_file s = some n) (hn : n ≠ "")
    (hpw : s.password_input ≠ "") (hr : dictLookup s.file_status n = some r)
    (hsucc : if r.extension = "pdf"
      then decrypt_pdf pr r.file_bytes s.password_input = true
      else (decrypt_office pr r.file_bytes s.password_input).isSome = true) :
    (handle_submit pr s).error_message = "" ∧
      ∀ s₂ m, get_current_file s₂ = some m → m ≠ "" →
        (handle_cancel s₂).error_message = cancelMessage m ∧ cancelMessage m ≠ "" := by
  constructor
  · by_cases hext : r.extension = "pdf"
    · rw [if_pos hext] at hsucc
      rw [handle_submit_eq_pdf_success hc hn hpw hr hext hsucc]
    · rw [if_neg hext] at hsucc
      obtain ⟨db, ho⟩ := Option.isSome_iff_exists.mp hsucc
      rw [handle_submit_eq_office_success hc hn hpw hr hext ho]
  · intro s₂ m hm hmn
    rw [handle_cancel_eq hm hmn]
    exact ⟨rfl, cancelMessage_ne_empty m⟩

/-- Witness for the amended C7: the successful pdf submission on
`wState` clears the error message. -/
theorem error_message_after_resolution_witness :
    (handle_submit wExternals wState).error_message = "" :=
  (error_message_after_resolution_spec wExternals wState "a.pdf" wPdfRecord rfl
    (by decide) (by decide) rfl (by decide)).1

/-- C8: encryption detection never blocks ingestion — an unsupported
extension, or a detection primitive that raises internally, yields a
record with `encrypted = false` (fail-open), and every record ingested
as not encrypted is immediately marked decrypted with its name appended
to `decrypted_files`. -/
theorem ingestion_fail_open_spec (pr : Externals) (files : List (String × Bytes)) :
    (∀ (s : SessionState) (name : String) (b : Bytes),
      extensionOf name ∉ (["pdf", "docx", "xlsx", "pptx"] : List String) →
      dictLookup (ingest_file pr s (name, b)).file_status name =
          some (ingestRecord pr name b) ∧
        (ingestRecord pr name b).encrypted = false) ∧
    (∀ (name : String) (b : Bytes), extensionOf name = "pdf" →
      pr.pdfReaderEncrypted b = none → (ingestRecord pr name b).encrypted = false) ∧
    (∀ (name : String) (b : Bytes),
      (extensionOf name = "docx" ∨ extensionOf name = "xlsx" ∨
        extensionOf name = "pptx") →
      pr.officeFileEncrypted b = none → (ingestRecord pr name b).encrypted = false) ∧
    (∀ n r, (n, r) ∈ (ingest pr files).file_status → r.encrypted = false →
      r.decrypted = true ∧ n ∈ (ingest pr files).decrypted_files) := by
  refine ⟨?_, ?_, ?_, ingest_unencrypted pr files⟩
  · intro s name b hns
    have hp : extensionOf name ≠ "pdf" := fun h => hns (by rw [h]; simp)
    have hd : extensionOf name ≠ "docx" := fun h => hns (by rw [h]; simp)
    have hx : extensionOf name ≠ "xlsx" := fun h => hns (by rw [h]; simp)
    have hp2 : extensionOf name ≠ "pptx" := fun h => hns (by rw [h]; simp)
    have hcond : ¬((extensionOf name = "docx" || extensionOf name = "xlsx" ||
        extensionOf name = "pptx") = true) := by
      simp [hd, hx, hp2]
    refine ⟨?_, ?_⟩
    · rw [ingest_file_file_status]
      exact dictLookup_dictInsert_self _ _ _
    · rw [ingestRecord_encrypted, classifyEncrypted, if_neg hp, if_neg hcond]
  · intro name b hpdf hraise
    rw [ingestRecord_encrypted, classifyEncrypted, if_pos hpdf]
    show is_pdf_encrypted pr b = false
    unfold is_pdf_encrypted
    rw [hraise]
  · intro name b hof hraise
    have hnp : extensionOf name ≠ "pdf" := by
      rcases hof with h | h | h <;> rw [h] <;> decide
    have hcond : (extensionOf name = "docx" || extensionOf name = "xlsx" ||
        extensionOf name = "pptx") = true := by
      rcases hof with h | h | h <;> simp [h]
    rw [ingestRecord_encrypted, classifyEncrypted, if_neg hnp, if_pos hcond]
    show is_office_encrypted pr b = false
    unfold is_office_encrypted
    rw [hraise]

/-- Witness for C8: the unsupported file "c.txt" is ingested fail-open. -/
theorem ingestion_fail_open_witness :
    dictLookup (ingest_file wExternals initialState ("c.txt", [0])).file_status "c.txt" =
        some (ingestRecord wExternals "c.txt" [0]) ∧
      (ingestRecord wExternals "c.txt" [0]).encrypted = false :=
  (ingestion_fail_open_spec wExternals wFiles).1 initialState "c.txt" [0] (by decide)

/-- C9: when no record is pending, both callbacks return the session
state entirely unchanged. -/
theorem no_pending_noop_spec (pr : Externals) (s : SessionState)
    (h : get_current_file s = none) :
    handle_submit pr s = s ∧ handle_cancel s = s :=
  ⟨handle_submit_no_current h, handle_cancel_no_current h⟩

/-- Witness for C9 on the empty session state. -/
theorem no_pending_noop_witness :
    handle_submit wExternals initialState = initialState ∧
      handle_cancel initialState = initialState :=
  no_pending_noop_spec wExternals initialState rfl

/-- C10: ingesting a batch that contains the same filename at least
twice leaves exactly one record under each filename (unique keys), the
record stored under that filename is the one built from its last
occurrence, and `decrypted_files` receives the name once per occurrence
classified not encrypted — so the list can contain duplicates. -/
theorem duplicate_filename_ingestion_spec (pr : Externals) (files : List (String × Bytes))
    (n : String) (hocc : 2 ≤ (files.filter fun f => decide (f.1 = n)).length) :
    (keysOf (ingest pr files).file_status).Nodup ∧
    (∃ f, (files.filter fun f => decide (f.1 = n)).getLast? = some f ∧ f.1 = n ∧
      dictLookup (ingest pr files).file_status n = some (ingestRecord pr f.1 f.2)) ∧
    (ingest pr files).decrypted_files.count n =
      (files.filter fun f =>
        decide (f.1 = n) && !(ingestRecord pr f.1 f.2).encrypted).length := by
  refine ⟨ingest_keys_nodup pr files, ?_, ?_⟩
  · have hne : (files.filter fun f => decide (f.1 = n)) ≠ [] := by
      intro h0
      rw [h0] at hocc
      simp at hocc
    obtain ⟨f, hf⟩ :=
      Option.isSome_iff_exists.mp (List.getLast?_isSome.mpr hne)
    have hfn : f.1 = n := by
      have hmem : f ∈ files.filter fun f => decide (f.1 = n) :=
        List.mem_of_mem_getLast? hf
      have := List.of_mem_filter hmem
      simpa using this
    refine ⟨f, hf, hfn, ?_⟩
    rw [ingest, ingest_lookup_aux pr n files initialState, hf]
    rfl
  · rw [ingest, ingest_count_aux pr n files initialState]
    simp [initialState]

/-- Witness for C10 on the duplicate batch `wDupFiles`. -/
theorem duplicate_filename_ingestion_witness :
    (ingest wExternals wDupFiles).decrypted_files.count "d.txt" =
      (wDupFiles.filter fun f =>
        decide (f.1 = "d.txt") && !(ingestRecord wExternals f.1 f.2).encrypted).length :=
  (duplicate_filename_ingestion_spec wExternals wDupFiles "d.txt" (by decide)).2.2

/-- Concrete evaluation: both unencrypted occurrences of "d.txt" put the
name into `decrypted_files`, so the list really holds duplicates. -/
theorem wDupFiles_decrypted_files_eval :
    (ingest wExternals wDupFiles).decrypted_files = ["d.txt", "d.txt"] := rfl

end PwApp
